import Mathlib

/-!
Shallow embedding of the CSG-tree core of `csg-explorer` (src/csg.h) and
proofs about it.  C++ `float` values are modelled as exact rationals where
they are stored in the tree, and evaluation is carried out over the reals
(the sphere distance uses a square root).  C++ `int` indices are modelled
as `ℤ`, with the C++ sentinel `-1` kept as such.  Fields that the C++
default constructor leaves indeterminate are modelled by fixed default
values (`default_operation`, `default_primitive`); no theorem below depends
on the particular value chosen except where explicitly exhibiting that the
code never writes a field.
-/

namespace Csg

/-- `enum struct primitive_type { sphere, box, none }` from src/csg.h. -/
inductive primitive_type where
  | sphere
  | box
  | none
deriving DecidableEq, Repr

/-- `struct CsgOperation { float blend; float softness; }` from src/csg.h. -/
structure CsgOperation where
  blend : ℚ
  softness : ℚ
deriving DecidableEq, Repr

/-- `struct CsgPrimitve { float params[16]; primitive_type type; }` from
src/csg.h (the list stands for the 16-slot parameter array). -/
structure CsgPrimitve where
  params : List ℚ
  type : primitive_type
deriving DecidableEq, Repr

/-- Value of a `CsgOperation` that the C++ code never initialises
(indeterminate in C++, fixed here). -/
def default_operation : CsgOperation := ⟨0, 0⟩

/-- Value of a `CsgPrimitve` that the C++ code never initialises
(indeterminate in C++, fixed here). -/
def default_primitive : CsgPrimitve := ⟨List.replicate 16 0, primitive_type.none⟩

/-- `struct CsgNode` from src/csg.h: `parent = -1`, `children = {-1,-1}`,
and an operation and a primitive payload (the union is commented out in the
source, so they are separate members; the default constructor initialises
neither). -/
structure CsgNode where
  parent : ℤ := -1
  children : ℤ × ℤ := (-1, -1)
  operation : CsgOperation := default_operation
  primitive : CsgPrimitve := default_primitive
deriving DecidableEq, Repr

instance : Inhabited CsgNode := ⟨{}⟩

/-- `struct CsgTree { vector<CsgNode> nodes = {}; int root = -1; }`. -/
structure CsgTree where
  nodes : List CsgNode
  root : ℤ
deriving DecidableEq, Repr

/-- `create_empty() → Tree`: the default-constructed `CsgTree{}` (empty node
list, root `-1`), as used by the parser (`auto csg = CsgTree{}`). -/
def create_empty : CsgTree := ⟨[], -1⟩

/-- Error vocabulary of the edit path.  The C++ code signals the condition
with `assert`s placed before any mutation; the spec names it
`InvalidAttachPoint`.  Out-of-range attach indices are undefined behaviour
in the C++ and are mapped to the same error here. -/
inductive CsgError where
  | invalidAttachPoint
deriving DecidableEq, Repr

instance : DecidableEq (Except CsgError ℤ) := fun x y =>
  match x, y with
  | Except.ok a, Except.ok b =>
      if h : a = b then isTrue (by rw [h])
      else isFalse (fun hc => h (Except.ok.inj hc))
  | Except.error a, Except.error b =>
      if h : a = b then isTrue (by rw [h])
      else isFalse (fun hc => h (Except.error.inj hc))
  | Except.ok _, Except.error _ => isFalse (fun hc => Except.noConfusion hc)
  | Except.error _, Except.ok _ => isFalse (fun hc => Except.noConfusion hc)

/-- `add_edit(CsgTree& csg, int parent, CsgOperation op, CsgPrimitve prim)`
from src/csg.h, lines 150-195.  The C++ mutates `csg` in place and returns
an `int`; here the updated tree is returned together with the result.  The
two `assert`s of the non-root branch (which fire before any mutation) are
modelled as the `invalidAttachPoint` error, leaving the tree unchanged. -/
def add_edit (csg : CsgTree) (parent : ℤ) (op : CsgOperation)
    (prim : CsgPrimitve) : CsgTree × Except CsgError ℤ :=
  let index : ℤ := csg.nodes.length
  if csg.nodes.isEmpty then
    -- auto& n = csg.nodes.emplace_back(); n.primitive = prim; csg.root = 0;
    (⟨csg.nodes ++ [{ primitive := prim }], 0⟩, Except.ok index)
  else if parent < 0 ∨ (csg.nodes.length : ℤ) ≤ parent then
    -- every remaining branch dereferences csg.nodes[parent]; out of range
    -- that is undefined behaviour in C++, modelled as a failed edit that
    -- leaves the tree unchanged.
    (csg, Except.error CsgError.invalidAttachPoint)
  else if parent = csg.root then
    -- push_back({}) twice, then through references:
    -- csg.root = index; csg.nodes[parent].parent = csg.root;
    -- root.children = {parent, index + 1}; root.operation = op;
    -- n.parent = csg.root; n.primitive = prim;
    (⟨(csg.nodes.set parent.toNat
          { csg.nodes.getD parent.toNat default with parent := index })
        ++ [{ children := (parent, index + 1), operation := op },
            { parent := index, primitive := prim }],
       index⟩,
     Except.ok (index + 1))
  else
    let pn := csg.nodes.getD parent.toNat default
    if pn.children.1 = -1 ∧ pn.children.2 = -1 then
      -- auto& a = emplace_back(); a.parent = parent;
      -- a.operation = csg.nodes[parent].operation;   (the "// old" node:
      --   only the operation member is copied, a's primitive is never set)
      -- auto& b = emplace_back(); b.parent = parent; b.primitive = prim;
      -- csg.nodes[parent].children = {index, index + 1};
      -- csg.nodes[parent].operation = op;
      (⟨(csg.nodes.set parent.toNat
            { pn with children := (index, index + 1), operation := op })
          ++ [{ parent := parent, operation := pn.operation },
              { parent := parent, primitive := prim }],
         csg.root⟩,
       Except.ok (index + 1))
    else
      -- assert(csg.nodes[parent].children.x == -1);
      -- assert(csg.nodes[parent].children.y == -1);
      -- the asserts fire before any mutation.
      (csg, Except.error CsgError.invalidAttachPoint)

/-- Parameter buffer of `Sphere(center, radius)` as built by the C++
aggregate `{{center.x, center.y, center.z, radius}, sphere}` (the remaining
12 of the 16 array slots are zero-initialised). -/
def sphere_params (center : ℚ × ℚ × ℚ) (radius : ℚ) : List ℚ :=
  [center.1, center.2.1, center.2.2, radius] ++ List.replicate 12 0

/-- `add_sphere` from src/csg.h, lines 197-201.  The C++ passes
`{true, softness}`; the `bool` `true` converts to the `float` `1.0f`. -/
def add_sphere (csg : CsgTree) (parent : ℤ) (softness : ℚ)
    (center : ℚ × ℚ × ℚ) (radius : ℚ) : CsgTree × Except CsgError ℤ :=
  add_edit csg parent ⟨1, softness⟩ ⟨sphere_params center radius, primitive_type.sphere⟩

/-- `subtract_sphere` from src/csg.h, lines 203-207.  The C++ passes
`{false, softness}`; the `bool` `false` converts to the `float` `0.0f`
(not `-1.0f`). -/
def subtract_sphere (csg : CsgTree) (parent : ℤ) (softness : ℚ)
    (center : ℚ × ℚ × ℚ) (radius : ℚ) : CsgTree × Except CsgError ℤ :=
  add_edit csg parent ⟨0, softness⟩ ⟨sphere_params center radius, primitive_type.sphere⟩

/-- A 3D sample point (`vec3f`), with exact rational coordinates. -/
def Vec3 : Type := ℚ × ℚ × ℚ

/-- `length(position - center)` for `vec3f`: the Euclidean norm, evaluated
in `ℝ` (the coordinates are exact rationals). -/
noncomputable def dist3 (p c : Vec3) : ℝ :=
  Real.sqrt (((p.1 - c.1) ^ 2 + (p.2.1 - c.2.1) ^ 2 + (p.2.2 - c.2.2) ^ 2 : ℚ) : ℝ)

/-- Modelled from the spec: `lerp` comes from `yocto_math.h`, which is not
part of the sources; §4.4 pins its behaviour (`f` at `blend = 0`, the soft
combination at `blend = 1`), i.e. standard linear interpolation. -/
def lerp (a b u : ℝ) : ℝ := a * (1 - u) + b * u

/-- `smin(a, b, k)` from src/csg.h, lines 50-54. -/
noncomputable def smin (a b k : ℝ) : ℝ :=
  if k = 0 then min a b
  else
    let h := max (k - |a - b|) 0 / k
    min a b - h * h * k * (1 / 4)

/-- `smax(a, b, k)` from src/csg.h, lines 56-60. -/
noncomputable def smax (a b k : ℝ) : ℝ :=
  if k = 0 then max a b
  else
    let h := max (k - |a - b|) 0 / k
    max a b + h * h * k * (1 / 4)

/-- `eval_primitive` from src/csg.h, lines 62-74.  The box branch returns
the constant `1`; the final `assert(0); return 1` (reached for
`primitive_type::none`) is modelled by its release-mode value `1`. -/
noncomputable def eval_primitive (position : Vec3) (primitive : primitive_type)
    (params : List ℚ) : ℝ :=
  if primitive = primitive_type.sphere then
    let center : Vec3 := (params.getD 0 0, params.getD 1 0, params.getD 2 0)
    let radius := params.getD 3 0
    dist3 position center - (radius : ℝ)
  else if primitive = primitive_type.box then 1
  else 1

/-- `eval_operation` from src/csg.h, lines 76-82. -/
noncomputable def eval_operation (f g blend softness : ℝ) : ℝ :=
  if 0 ≤ blend then lerp f (smin f g softness) blend
  else lerp f (smax f (-g) softness) (-blend)

/-- Recursive `eval_csg(csg, position, node)` from src/csg.h, lines 84-95.
The C++ recursion has no structural bound, so a fuel argument is added;
`none` marks fuel exhaustion (for well-formed trees, `nodes.length` fuel
suffices, proved below).  Child indexing `csg.nodes[children.x]` is by
`getD`. -/
noncomputable def eval_csg_node : ℕ → CsgTree → Vec3 → CsgNode → Option ℝ
  | 0, _, _, _ => Option.none
  | fuel + 1, csg, position, node =>
    if node.children = (-1, -1) then
      some (eval_primitive position node.primitive.type node.primitive.params)
    else
      match eval_csg_node fuel csg position (csg.nodes.getD node.children.1.toNat default),
            eval_csg_node fuel csg position (csg.nodes.getD node.children.2.toNat default) with
      | some f, some g =>
          some (eval_operation f g (node.operation.blend : ℝ) (node.operation.softness : ℝ))
      | _, _ => Option.none

/-- `eval_csg(csg, position)` from src/csg.h, lines 97-99: evaluate the tree
at its root with sufficient fuel. -/
noncomputable def eval_csg (csg : CsgTree) (position : Vec3) : Option ℝ :=
  eval_csg_node csg.nodes.length csg position (csg.nodes.getD csg.root.toNat default)

/-- `struct CsgXXX` from src/csg.h: the flat (baked) instruction.  The C++
holds the operation and the primitive in a union; the linearizer and the
flat evaluator each touch only the member matching `children`, so both are
carried here, the inactive one holding its default. -/
structure CsgXXX where
  children : ℤ × ℤ := (-1, -1)
  operation : CsgOperation := default_operation
  primitive : CsgPrimitve := default_primitive
deriving DecidableEq, Repr

instance : Inhabited CsgXXX := ⟨{}⟩

/-- Copy of the 16-slot parameter array performed by the linearizer
(`for (int i = 0; i < 16; i++) f.primitive.params[i] = primitive.params[i]`). -/
def copy_params (params : List ℚ) : List ℚ :=
  (List.range 16).map fun i => params.getD i 0

/-- Recursive `bake_eval_csg(csg, n, result, mapping)` from src/csg.h,
lines 101-124: post-order traversal appending to `result` and recording
each node's flat position in `mapping`.  Fuel as for `eval_csg_node`; the
two `assert(mapping[...] != -1)` are modelled as a guard returning
`Option.none`. -/
def bake_eval_csg_node : ℕ → CsgTree → ℤ → List CsgXXX → List ℤ →
    Option (List CsgXXX × List ℤ)
  | 0, _, _, _, _ => Option.none
  | fuel + 1, csg, n, result, mapping =>
    let node := csg.nodes.getD n.toNat default
    if node.children = (-1, -1) then
      let f : CsgXXX :=
        { children := (-1, -1),
          primitive := ⟨copy_params node.primitive.params, node.primitive.type⟩ }
      some (result ++ [f], mapping.set n.toNat (result.length : ℤ))
    else
      match bake_eval_csg_node fuel csg node.children.1 result mapping with
      | Option.none => Option.none
      | some (r1, m1) =>
        match bake_eval_csg_node fuel csg node.children.2 r1 m1 with
        | Option.none => Option.none
        | some (r2, m2) =>
          if m2.getD node.children.1.toNat (-1) ≠ -1 ∧
             m2.getD node.children.2.toNat (-1) ≠ -1 then
            let f : CsgXXX :=
              { children := (m2.getD node.children.1.toNat (-1),
                             m2.getD node.children.2.toNat (-1)),
                operation := ⟨node.operation.blend, node.operation.softness⟩ }
            some (r2 ++ [f], m2.set n.toNat (r2.length : ℤ))
          else Option.none

/-- `bake_eval_csg(csg)` from src/csg.h, lines 126-131, kept together with
the final `mapping` array (initialised to all `-1`). -/
def bake_eval_csg_run (csg : CsgTree) : Option (List CsgXXX × List ℤ) :=
  bake_eval_csg_node csg.nodes.length csg csg.root []
    (List.replicate csg.nodes.length (-1))

/-- `bake_eval_csg(csg)` from src/csg.h, lines 126-131: the flat array. -/
def bake_eval_csg (csg : CsgTree) : Option (List CsgXXX) :=
  (bake_eval_csg_run csg).map Prod.fst

/-- One step of the flat evaluator's loop (src/csg.h, lines 135-146): append
the value of the next instruction, reading children's values from the
already-computed prefix. -/
noncomputable def flat_step (position : Vec3) (values : List ℝ) (inst : CsgXXX) :
    List ℝ :=
  if inst.children = (-1, -1) then
    values ++ [eval_primitive position inst.primitive.type inst.primitive.params]
  else
    values ++ [eval_operation (values.getD inst.children.1.toNat 0)
      (values.getD inst.children.2.toNat 0)
      (inst.operation.blend : ℝ) (inst.operation.softness : ℝ)]

/-- The `values` array of the flat `eval_csg(vector<CsgXXX>, position)`
(src/csg.h, lines 133-148), built in instruction order. -/
noncomputable def flat_values (csg : List CsgXXX) (position : Vec3) : List ℝ :=
  csg.foldl (flat_step position) []

/-- Flat `eval_csg(vector<CsgXXX>, position)` from src/csg.h, lines
133-148: `values.back()`. -/
noncomputable def eval_csg_flat (csg : List CsgXXX) (position : Vec3) : ℝ :=
  (flat_values csg position).getD (csg.length - 1) 0

/-- Trees reachable from `create_empty()` by `add_edit` calls (with
arbitrary attach points, operations and primitives; failed edits leave the
tree unchanged). -/
inductive Reachable : CsgTree → Prop
  | empty : Reachable create_empty
  | step (t : CsgTree) (parent : ℤ) (op : CsgOperation) (prim : CsgPrimitve) :
      Reachable t → Reachable (add_edit t parent op prim).1

/-- Node `j` of the arena `l` is either a leaf (`children = (-1,-1)`) or an
internal node with both children valid indices of strictly smaller rank. -/
def NodeOk (l : List CsgNode) (d : ℕ → ℕ) (j : ℕ) : Prop :=
  (l.getD j default).children = (-1, -1) ∨
  (0 ≤ (l.getD j default).children.1 ∧
   (l.getD j default).children.1 < (l.length : ℤ) ∧
   0 ≤ (l.getD j default).children.2 ∧
   (l.getD j default).children.2 < (l.length : ℤ) ∧
   d (l.getD j default).children.1.toNat < d j ∧
   d (l.getD j default).children.2.toNat < d j)

/-- `d` certifies that every node of the arena `l` is well-formed with rank
below the arena size (so every root-to-leaf path strictly decreases `d`). -/
def CertOk (l : List CsgNode) (d : ℕ → ℕ) : Prop :=
  ∀ j, j < l.length → NodeOk l d j ∧ d j < l.length

/-- Well-formed tree: valid root (when non-empty) and a rank certificate. -/
structure WF (t : CsgTree) : Prop where
  root_range : t.nodes ≠ [] → 0 ≤ t.root ∧ t.root < (t.nodes.length : ℤ)
  cert : ∃ d, CertOk t.nodes d

/-- `eval_csg_node` evaluates node `i` of `t` at `p` to `v` (with enough
fuel). -/
def EvalIdx (t : CsgTree) (p : Vec3) (i : ℕ) (v : ℝ) : Prop :=
  ∃ k, eval_csg_node k t p (t.nodes.getD i default) = some v

/-- The flat array is topologically sorted: every internal instruction's
children point to valid positions strictly below its own. -/
def Topo (result : List CsgXXX) : Prop :=
  ∀ pos, pos < result.length →
    (result.getD pos default).children ≠ (-1, -1) →
    (0 ≤ (result.getD pos default).children.1 ∧
     (result.getD pos default).children.1 < (pos : ℤ) ∧
     0 ≤ (result.getD pos default).children.2 ∧
     (result.getD pos default).children.2 < (pos : ℤ))

/-- Mapping invariant of the bake pass: every assigned entry denotes a
valid flat position whose computed value is the node's recursive value. -/
def MapOk (t : CsgTree) (p : Vec3) (result : List CsgXXX)
    (mapping : List ℤ) : Prop :=
  ∀ j, j < t.nodes.length → mapping.getD j (-1) ≠ -1 →
    0 ≤ mapping.getD j (-1) ∧
    (mapping.getD j (-1)).toNat < result.length ∧
    ∃ v, EvalIdx t p j v ∧
      (flat_values result p).getD (mapping.getD j (-1)).toNat 0 = v

/-! ### Concrete example data used by witnesses and counterexamples -/

/-- Hard-union operation (`blend = 1`, `softness = 0`). -/
def opU : CsgOperation := ⟨1, 0⟩

def sphereA : CsgPrimitve := ⟨sphere_params (0, 0, 0) 1, primitive_type.sphere⟩

def sphereB : CsgPrimitve := ⟨sphere_params (1, 0, 0) 1, primitive_type.sphere⟩

def sphereC : CsgPrimitve := ⟨sphere_params (2, 0, 0) 1, primitive_type.sphere⟩

/-- One-leaf tree: a single edit into the empty tree. -/
def t1c : CsgTree := (add_edit create_empty 0 opU sphereA).1

/-- Three-node tree: second edit attached at the root. -/
def t2c : CsgTree := (add_edit t1c 0 opU sphereB).1

/-- Five-node tree: third edit attached at the non-root leaf `2`. -/
def t3c : CsgTree := (add_edit t2c 2 opU sphereC).1

/-- A tree whose node `1` is a non-root node with two children. -/
def t4c : CsgTree :=
  ⟨[{ children := (1, 2), operation := opU },
    { parent := 0, children := (3, 4), operation := opU },
    { parent := 0, primitive := sphereA },
    { parent := 1, primitive := sphereB },
    { parent := 1, primitive := sphereC }], 0⟩

/-! ### List access helpers -/

lemma getD_append_lt {α : Type _} (l l' : List α) (n : ℕ) (d : α)
    (h : n < l.length) : (l ++ l').getD n d = l.getD n d := by
  simp [List.getD_eq_getElem?_getD, List.getElem?_append, h]

lemma getD_append_add {α : Type _} (l l' : List α) (n : ℕ) (d : α) :
    (l ++ l').getD (l.length + n) d = l'.getD n d := by
  simp [List.getD_eq_getElem?_getD,
    List.getElem?_append_right (Nat.le_add_right l.length n)]

lemma getD_set_self {α : Type _} (l : List α) (i : ℕ) (a d : α)
    (h : i < l.length) : (l.set i a).getD i d = a := by
  simp [List.getD_eq_getElem?_getD, List.getElem?_set_self h]

lemma getD_set_ne {α : Type _} (l : List α) (i j : ℕ) (a d : α)
    (h : i ≠ j) : (l.set i a).getD j d = l.getD j d := by
  simp [List.getD_eq_getElem?_getD, List.getElem?_set_ne h]

lemma getD_of_length_le {α : Type _} (l : List α) (n : ℕ) (d : α)
    (h : l.length ≤ n) : l.getD n d = d := by
  simp [List.getD_eq_getElem?_getD, List.getElem?_eq_none h]

lemma getD_replicate_lt {α : Type _} (k n : ℕ) (a d : α) (h : n < k) :
    (List.replicate k a).getD n d = a := by
  simp [List.getD_eq_getElem?_getD, List.getElem?_replicate, h]

/-! ### Branch characterisations of `add_edit` -/

/-- Empty tree: one leaf appended, root `0`, returns `0`. -/
lemma add_edit_empty_eq (csg : CsgTree) (parent : ℤ) (op : CsgOperation)
    (prim : CsgPrimitve) (h : csg.nodes = []) :
    add_edit csg parent op prim =
      (⟨[{ primitive := prim }], 0⟩, Except.ok 0) := by
  simp [add_edit, h]

/-- Attach at the root (root index in range): unfolded form. -/
lemma add_edit_root_eq (csg : CsgTree) (parent : ℤ) (op : CsgOperation)
    (prim : CsgPrimitve) (hne : csg.nodes ≠ []) (hp : parent = csg.root)
    (h0 : 0 ≤ parent) (hlt : parent < (csg.nodes.length : ℤ)) :
    add_edit csg parent op prim =
      (⟨(csg.nodes.set parent.toNat
            { csg.nodes.getD parent.toNat default with
                parent := (csg.nodes.length : ℤ) })
          ++ [{ children := (parent, (csg.nodes.length : ℤ) + 1), operation := op },
              { parent := (csg.nodes.length : ℤ), primitive := prim }],
         (csg.nodes.length : ℤ)⟩,
       Except.ok ((csg.nodes.length : ℤ) + 1)) := by
  have hemp : csg.nodes.isEmpty = false := by simp [List.isEmpty_iff, hne]
  simp only [add_edit, hemp, Bool.false_eq_true, if_false,
    if_neg (by omega : ¬ (parent < 0 ∨ (csg.nodes.length : ℤ) ≤ parent)),
    if_pos hp]

/-- Attach at a non-root leaf (index in range, both children `-1`):
unfolded form.  Note the appended copy-node carries the old node's
`operation` while its `primitive` stays at its (uninitialised) default. -/
lemma add_edit_leaf_eq (csg : CsgTree) (parent : ℤ) (op : CsgOperation)
    (prim : CsgPrimitve) (hne : csg.nodes ≠ []) (hp : parent ≠ csg.root)
    (h0 : 0 ≤ parent) (hlt : parent < (csg.nodes.length : ℤ))
    (hx : (csg.nodes.getD parent.toNat default).children.1 = -1)
    (hy : (csg.nodes.getD parent.toNat default).children.2 = -1) :
    add_edit csg parent op prim =
      (⟨(csg.nodes.set parent.toNat
            { csg.nodes.getD parent.toNat default with
                children := ((csg.nodes.length : ℤ), (csg.nodes.length : ℤ) + 1),
                operation := op })
          ++ [{ parent := parent,
                operation := (csg.nodes.getD parent.toNat default).operation },
              { parent := parent, primitive := prim }],
         csg.root⟩,
       Except.ok ((csg.nodes.length : ℤ) + 1)) := by
  have hemp : csg.nodes.isEmpty = false := by simp [List.isEmpty_iff, hne]
  simp only [add_edit, hemp, Bool.false_eq_true, if_false,
    if_neg (by omega : ¬ (parent < 0 ∨ (csg.nodes.length : ℤ) ≤ parent)),
    if_neg hp, if_pos (And.intro hx hy)]

/-- Attach at a non-root node that is not a leaf: the edit fails and the
tree is returned unchanged. -/
lemma add_edit_notleaf_eq (csg : CsgTree) (parent : ℤ) (op : CsgOperation)
    (prim : CsgPrimitve) (hne : csg.nodes ≠ []) (hp : parent ≠ csg.root)
    (h0 : 0 ≤ parent) (hlt : parent < (csg.nodes.length : ℤ))
    (hxy : ¬ ((csg.nodes.getD parent.toNat default).children.1 = -1 ∧
              (csg.nodes.getD parent.toNat default).children.2 = -1)) :
    add_edit csg parent op prim = (csg, Except.error CsgError.invalidAttachPoint) := by
  have hemp : csg.nodes.isEmpty = false := by simp [List.isEmpty_iff, hne]
  simp only [add_edit, hemp, Bool.false_eq_true, if_false,
    if_neg (by omega : ¬ (parent < 0 ∨ (csg.nodes.length : ℤ) ≤ parent)),
    if_neg hp, if_neg hxy]

/-- Out-of-range attach index on a non-empty tree: the edit fails and the
tree is returned unchanged. -/
lemma add_edit_oob_eq (csg : CsgTree) (parent : ℤ) (op : CsgOperation)
    (prim : CsgPrimitve) (hne : csg.nodes ≠ [])
    (h : parent < 0 ∨ (csg.nodes.length : ℤ) ≤ parent) :
    add_edit csg parent op prim = (csg, Except.error CsgError.invalidAttachPoint) := by
  have hemp : csg.nodes.isEmpty = false := by simp [List.isEmpty_iff, hne]
  simp only [add_edit, hemp, Bool.false_eq_true, if_false, if_pos h]

lemma getD_append_exact {α : Type _} (l l' : List α) (k n : ℕ) (d : α)
    (h : n = l.length + k) : (l ++ l').getD n d = l'.getD k d := by
  subst h; exact getD_append_add l l' k d

lemma add_edit_empty_fst (csg : CsgTree) (parent : ℤ) (op : CsgOperation)
    (prim : CsgPrimitve) (h : csg.nodes = []) :
    (add_edit csg parent op prim).1 = ⟨[{ primitive := prim }], 0⟩ := by
  rw [add_edit_empty_eq csg parent op prim h]

lemma add_edit_root_fst (csg : CsgTree) (parent : ℤ) (op : CsgOperation)
    (prim : CsgPrimitve) (hne : csg.nodes ≠ []) (hp : parent = csg.root)
    (h0 : 0 ≤ parent) (hlt : parent < (csg.nodes.length : ℤ)) :
    (add_edit csg parent op prim).1 =
      ⟨(csg.nodes.set parent.toNat
            { csg.nodes.getD parent.toNat default with
                parent := (csg.nodes.length : ℤ) })
          ++ [{ children := (parent, (csg.nodes.length : ℤ) + 1), operation := op },
              { parent := (csg.nodes.length : ℤ), primitive := prim }],
         (csg.nodes.length : ℤ)⟩ := by
  rw [add_edit_root_eq csg parent op prim hne hp h0 hlt]

lemma add_edit_leaf_fst (csg : CsgTree) (parent : ℤ) (op : CsgOperation)
    (prim : CsgPrimitve) (hne : csg.nodes ≠ []) (hp : parent ≠ csg.root)
    (h0 : 0 ≤ parent) (hlt : parent < (csg.nodes.length : ℤ))
    (hx : (csg.nodes.getD parent.toNat default).children.1 = -1)
    (hy : (csg.nodes.getD parent.toNat default).children.2 = -1) :
    (add_edit csg parent op prim).1 =
      ⟨(csg.nodes.set parent.toNat
            { csg.nodes.getD parent.toNat default with
                children := ((csg.nodes.length : ℤ), (csg.nodes.length : ℤ) + 1),
                operation := op })
          ++ [{ parent := parent,
                operation := (csg.nodes.getD parent.toNat default).operation },
              { parent := parent, primitive := prim }],
         csg.root⟩ := by
  rw [add_edit_leaf_eq csg parent op prim hne hp h0 hlt hx hy]

/-! ### Well-formedness of reachable trees -/

/-- A node that keeps its `children` stays well-formed in a larger arena,
for any rank function that preserves strict comparisons on old indices. -/
lemma nodeOk_extend {l L : List CsgNode} {d d' : ℕ → ℕ} {j : ℕ}
    (hj : j < l.length)
    (hlen : l.length ≤ L.length)
    (hch : (L.getD j default).children = (l.getD j default).children)
    (hok : NodeOk l d j)
    (hmono : ∀ i₁ i₂, i₁ < l.length → i₂ < l.length →
      d i₁ < d i₂ → d' i₁ < d' i₂) :
    NodeOk L d' j := by
  rcases hok with hl | ⟨a1, a2, a3, a4, a5, a6⟩
  · exact Or.inl (by rw [hch, hl])
  · refine Or.inr ?_
    rw [hch]
    exact ⟨a1, by omega, a3, by omega,
      hmono _ _ (by omega) hj a5, hmono _ _ (by omega) hj a6⟩

/-- Every tree reachable from `create_empty` by `add_edit` calls is
well-formed. -/
theorem wf_reachable : ∀ {t : CsgTree}, Reachable t → WF t := by
  intro t h
  induction h with
  | empty =>
      refine ⟨fun h => absurd rfl h, ⟨fun _ => 0, fun j hj => absurd hj ?_⟩⟩
      simp [create_empty]
  | step t parent op prim hR IH =>
      by_cases hemp : t.nodes = []
      · rw [add_edit_empty_fst t parent op prim hemp]
        refine ⟨fun _ => ⟨le_refl 0, by norm_num⟩, ⟨fun _ => 0, ?_⟩⟩
        intro j hj
        simp only [List.length_cons, List.length_nil] at hj
        have hj0 : j = 0 := by omega
        subst hj0
        exact ⟨Or.inl rfl, by simp⟩
      · by_cases hoob : parent < 0 ∨ (t.nodes.length : ℤ) ≤ parent
        · have heq := add_edit_oob_eq t parent op prim hemp hoob
          rw [show (add_edit t parent op prim).1 = t from by rw [heq]]
          exact IH
        · push_neg at hoob
          obtain ⟨h0, hlt⟩ := hoob
          obtain ⟨d, hd⟩ := IH.cert
          have hptn : parent.toNat < t.nodes.length := by omega
          by_cases hp : parent = t.root
          · -- attach at the root
            rw [add_edit_root_fst t parent op prim hemp hp h0 hlt]
            set n := t.nodes.length with hn
            set old := t.nodes.getD parent.toNat default with hold
            set L := (t.nodes.set parent.toNat { old with parent := (n : ℤ) })
                ++ [{ children := (parent, (n : ℤ) + 1), operation := op },
                    { parent := (n : ℤ), primitive := prim }] with hL
            have hLlen : L.length = n + 2 := by simp [hL]
            have hgch : ∀ j, j < n →
                (L.getD j default).children = (t.nodes.getD j default).children := by
              intro j hj
              rw [hL, getD_append_lt _ _ _ _ (by simp [hn]; omega)]
              by_cases hje : parent.toNat = j
              · subst hje
                rw [getD_set_self _ _ _ _ hptn, ← hold]
              · rw [getD_set_ne _ _ _ _ _ hje]
            have hgn : L.getD n default =
                { children := (parent, (n : ℤ) + 1), operation := op } := by
              rw [hL, getD_append_exact _ _ 0 n _ (by simp [hn])]
              rfl
            have hgn1 : L.getD (n + 1) default =
                { parent := (n : ℤ), primitive := prim } := by
              rw [hL, getD_append_exact _ _ 1 (n + 1) _ (by simp [hn])]
              rfl
            have hcert : CertOk L
                (fun j => if j < n then d j else if j = n then n else 0) := by
              intro j hj
              rw [hLlen] at hj
              rw [hLlen]
              rcases Nat.lt_or_ge j n with hjlt | hjge
              · obtain ⟨hok, hdb⟩ := hd j hjlt
                constructor
                · refine nodeOk_extend hjlt (by omega) (hgch j hjlt) hok ?_
                  intro i₁ i₂ hi₁ hi₂ hlt'
                  simpa [hi₁, hi₂] using hlt'
                · show (if j < n then d j else if j = n then n else 0) < n + 2
                  rw [if_pos hjlt]; omega
              · rcases Nat.lt_or_ge j (n + 1) with hjn | hjn1
                · have hje : j = n := by omega
                  subst hje
                  constructor
                  · refine Or.inr ?_
                    rw [hgn]
                    have hdp := (hd parent.toNat hptn).2
                    have hN1t : ((n : ℤ) + 1).toNat = n + 1 := by omega
                    refine ⟨h0, ?_, by show (0:ℤ) ≤ (n:ℤ) + 1; omega, ?_, ?_, ?_⟩
                    · show parent < ((L.length : ℕ) : ℤ)
                      rw [hLlen]; push_cast; omega
                    · show (n : ℤ) + 1 < ((L.length : ℕ) : ℤ)
                      rw [hLlen]; push_cast; omega
                    · show (if parent.toNat < n then d parent.toNat
                        else if parent.toNat = n then n else 0) <
                        (if n < n then d n else if n = n then n else 0)
                      rw [if_pos hptn, if_neg (Nat.lt_irrefl n), if_pos rfl]
                      exact hdp
                    · show (if ((n:ℤ)+1).toNat < n then d ((n:ℤ)+1).toNat
                        else if ((n:ℤ)+1).toNat = n then n else 0) <
                        (if n < n then d n else if n = n then n else 0)
                      rw [hN1t, if_neg (by omega), if_neg (by omega),
                        if_neg (Nat.lt_irrefl n), if_pos rfl]
                      omega
                  · show (if n < n then d n else if n = n then n else 0) < n + 2
                    rw [if_neg (Nat.lt_irrefl n), if_pos rfl]; omega
                · have hje : j = n + 1 := by omega
                  subst hje
                  refine ⟨Or.inl (by rw [hgn1]), ?_⟩
                  show (if n + 1 < n then d (n+1) else if n + 1 = n then n else 0) < n + 2
                  rw [if_neg (by omega), if_neg (by omega)]; omega
            refine ⟨fun _ => ⟨?_, ?_⟩, ⟨_, hcert⟩⟩
            · show (0 : ℤ) ≤ (n : ℤ); omega
            · show (n : ℤ) < ((L.length : ℕ) : ℤ)
              rw [hLlen]; push_cast; omega
          · -- attach at a non-root node
            by_cases hleaf : (t.nodes.getD parent.toNat default).children.1 = -1 ∧
                (t.nodes.getD parent.toNat default).children.2 = -1
            · rw [add_edit_leaf_fst t parent op prim hemp hp h0 hlt hleaf.1 hleaf.2]
              set n := t.nodes.length with hn
              set old := t.nodes.getD parent.toNat default with hold
              set L := (t.nodes.set parent.toNat
                    { old with children := ((n : ℤ), (n : ℤ) + 1), operation := op })
                  ++ [{ parent := parent, operation := old.operation },
                      { parent := parent, primitive := prim }] with hL
              have hLlen : L.length = n + 2 := by simp [hL]
              have hgch : ∀ j, j < n → parent.toNat ≠ j →
                  L.getD j default = t.nodes.getD j default := by
                intro j hj hje
                rw [hL, getD_append_lt _ _ _ _ (by simp [hn]; omega),
                  getD_set_ne _ _ _ _ _ hje]
              have hgp : L.getD parent.toNat default =
                  { old with children := ((n : ℤ), (n : ℤ) + 1), operation := op } := by
                rw [hL, getD_append_lt _ _ _ _ (by simp [hn]; omega),
                  getD_set_self _ _ _ _ hptn]
              have hgn : L.getD n default =
                  { parent := parent, operation := old.operation } := by
                rw [hL, getD_append_exact _ _ 0 n _ (by simp [hn])]
                rfl
              have hgn1 : L.getD (n + 1) default =
                  { parent := parent, primitive := prim } := by
                rw [hL, getD_append_exact _ _ 1 (n + 1) _ (by simp [hn])]
                rfl
              have hcert : CertOk L (fun j => if j < n then d j + 1 else 0) := by
                intro j hj
                rw [hLlen] at hj
                rw [hLlen]
                rcases Nat.lt_or_ge j n with hjlt | hjge
                · obtain ⟨hok, hdb⟩ := hd j hjlt
                  constructor
                  · by_cases hje : parent.toNat = j
                    · -- the promoted node, children (n, n+1)
                      subst hje
                      refine Or.inr ?_
                      rw [hgp]
                      have hNt : ((n : ℤ)).toNat = n := by omega
                      have hN1t : ((n : ℤ) + 1).toNat = n + 1 := by omega
                      refine ⟨by show (0:ℤ) ≤ (n:ℤ); omega, ?_,
                        by show (0:ℤ) ≤ (n:ℤ) + 1; omega, ?_, ?_, ?_⟩
                      · show (n : ℤ) < ((L.length : ℕ) : ℤ)
                        rw [hLlen]; push_cast; omega
                      · show (n : ℤ) + 1 < ((L.length : ℕ) : ℤ)
                        rw [hLlen]; push_cast; omega
                      · show (if ((n:ℤ)).toNat < n then d ((n:ℤ)).toNat + 1 else 0) <
                          (if parent.toNat < n then d parent.toNat + 1 else 0)
                        rw [hNt, if_neg (Nat.lt_irrefl n), if_pos hptn]
                        omega
                      · show (if ((n:ℤ)+1).toNat < n then d ((n:ℤ)+1).toNat + 1 else 0) <
                          (if parent.toNat < n then d parent.toNat + 1 else 0)
                        rw [hN1t, if_neg (by omega), if_pos hptn]
                        omega
                    · refine nodeOk_extend hjlt (by omega)
                        (by rw [hgch j hjlt hje]) hok ?_
                      intro i₁ i₂ hi₁ hi₂ hlt'
                      simpa [hi₁, hi₂] using hlt'
                  · show (if j < n then d j + 1 else 0) < n + 2
                    rw [if_pos hjlt]; omega
                · rcases Nat.lt_or_ge j (n + 1) with hjn | hjn1
                  · have hje : j = n := by omega
                    subst hje
                    refine ⟨Or.inl (by rw [hgn]), ?_⟩
                    show (if n < n then d n + 1 else 0) < n + 2
                    rw [if_neg (Nat.lt_irrefl n)]; omega
                  · have hje : j = n + 1 := by omega
                    subst hje
                    refine ⟨Or.inl (by rw [hgn1]), ?_⟩
                    show (if n + 1 < n then d (n+1) + 1 else 0) < n + 2
                    rw [if_neg (by omega)]; omega
              obtain ⟨hrl, hrr⟩ := IH.root_range hemp
              refine ⟨fun _ => ⟨hrl, ?_⟩, ⟨_, hcert⟩⟩
              show t.root < ((L.length : ℕ) : ℤ)
              rw [hLlen]; push_cast; omega
            · have heq := add_edit_notleaf_eq t parent op prim hemp hp h0 hlt hleaf
              rw [show (add_edit t parent op prim).1 = t from by rw [heq]]
              exact IH

/-! ### Evaluation machinery -/

lemma eval_csg_node_zero (csg : CsgTree) (p : Vec3) (node : CsgNode) :
    eval_csg_node 0 csg p node = Option.none := rfl

/-- One-step unfolding of `eval_csg_node` at positive fuel. -/
lemma eval_csg_node_succ (k : ℕ) (csg : CsgTree) (p : Vec3) (node : CsgNode) :
    eval_csg_node (k + 1) csg p node =
      if node.children = (-1, -1) then
        some (eval_primitive p node.primitive.type node.primitive.params)
      else
        match eval_csg_node k csg p (csg.nodes.getD node.children.1.toNat default),
              eval_csg_node k csg p (csg.nodes.getD node.children.2.toNat default) with
        | some f, some g =>
            some (eval_operation f g (node.operation.blend : ℝ)
              (node.operation.softness : ℝ))
        | _, _ => Option.none := by
  simp only [eval_csg_node]

/-- More fuel never changes a successful recursive evaluation. -/
lemma eval_csg_node_mono : ∀ (k : ℕ) (csg : CsgTree) (p : Vec3) (node : CsgNode)
    (v : ℝ), eval_csg_node k csg p node = some v →
    eval_csg_node (k + 1) csg p node = some v := by
  intro k
  induction k with
  | zero => intro csg p node v h; simp [eval_csg_node] at h
  | succ k ih =>
      intro csg p node v h
      rw [eval_csg_node_succ] at h ⊢
      by_cases hch : node.children = (-1, -1)
      · rwa [if_pos hch] at h ⊢
      · rw [if_neg hch] at h ⊢
        rcases h1 : eval_csg_node k csg p
            (csg.nodes.getD node.children.1.toNat default) with _ | f
        · rw [h1] at h; simp at h
        · rcases h2 : eval_csg_node k csg p
              (csg.nodes.getD node.children.2.toNat default) with _ | g
          · rw [h1, h2] at h; simp at h
          · rw [h1, h2] at h
            rw [ih _ _ _ _ h1, ih _ _ _ _ h2]
            exact h

lemma eval_csg_node_le {k k' : ℕ} (h : k ≤ k') {csg : CsgTree} {p : Vec3}
    {node : CsgNode} {v : ℝ} (he : eval_csg_node k csg p node = some v) :
    eval_csg_node k' csg p node = some v := by
  induction h with
  | refl => exact he
  | step h ih => exact eval_csg_node_mono _ _ _ _ _ ih

/-- Under a rank certificate, recursive evaluation succeeds whenever the
fuel exceeds the node's rank. -/
lemma eval_csg_node_succeeds : ∀ (k : ℕ) (t : CsgTree) (d : ℕ → ℕ) (p : Vec3),
    CertOk t.nodes d → ∀ i, i < t.nodes.length → d i < k →
    ∃ v, eval_csg_node k t p (t.nodes.getD i default) = some v := by
  intro k
  induction k with
  | zero => intro t d p hc i hi hk; omega
  | succ k ih =>
      intro t d p hc i hi hk
      obtain ⟨hok, hb⟩ := hc i hi
      by_cases hch : (t.nodes.getD i default).children = (-1, -1)
      · exact ⟨_, by rw [eval_csg_node_succ, if_pos hch]⟩
      · rcases hok with hl | ⟨a1, a2, a3, a4, a5, a6⟩
        · exact absurd hl hch
        · obtain ⟨f, hf⟩ := ih t d p hc
            (t.nodes.getD i default).children.1.toNat (by omega) (by omega)
          obtain ⟨g, hg⟩ := ih t d p hc
            (t.nodes.getD i default).children.2.toNat (by omega) (by omega)
          refine ⟨eval_operation f g ((t.nodes.getD i default).operation.blend : ℝ)
            ((t.nodes.getD i default).operation.softness : ℝ), ?_⟩
          rw [eval_csg_node_succ, if_neg hch, hf, hg]

lemma evalIdx_det {t : CsgTree} {p : Vec3} {i : ℕ} {v w : ℝ}
    (hv : EvalIdx t p i v) (hw : EvalIdx t p i w) : v = w := by
  obtain ⟨k1, h1⟩ := hv
  obtain ⟨k2, h2⟩ := hw
  have h1' := eval_csg_node_le (Nat.le_max_left k1 k2) h1
  have h2' := eval_csg_node_le (Nat.le_max_right k1 k2) h2
  rw [h1'] at h2'
  exact Option.some.inj h2'

/-- Each `flat_step` appends exactly one value. -/
lemma flat_step_eq (p : Vec3) (vals : List ℝ) (inst : CsgXXX) :
    ∃ v, flat_step p vals inst = vals ++ [v] := by
  by_cases h : inst.children = (-1, -1)
  · exact ⟨eval_primitive p inst.primitive.type inst.primitive.params,
      by simp [flat_step, h]⟩
  · exact ⟨eval_operation (vals.getD inst.children.1.toNat 0)
      (vals.getD inst.children.2.toNat 0) (inst.operation.blend : ℝ)
      (inst.operation.softness : ℝ), by simp [flat_step, h]⟩

lemma flat_values_concat (csg : List CsgXXX) (x : CsgXXX) (p : Vec3) :
    flat_values (csg ++ [x]) p = flat_step p (flat_values csg p) x := by
  simp [flat_values, List.foldl_append]

lemma length_flat_values (csg : List CsgXXX) (p : Vec3) :
    (flat_values csg p).length = csg.length := by
  suffices h : ∀ init : List ℝ,
      (csg.foldl (flat_step p) init).length = init.length + csg.length by
    simpa [flat_values] using h []
  induction csg with
  | nil => intro init; simp
  | cons x xs ih =>
      intro init
      obtain ⟨v, hv⟩ := flat_step_eq p init x
      simp [List.foldl_cons, ih, hv]
      omega

/-- Values already computed are unchanged by appending instructions. -/
lemma flat_values_stable : ∀ (Δ csg : List CsgXXX) (p : Vec3) (j : ℕ),
    j < csg.length →
    (flat_values (csg ++ Δ) p).getD j 0 = (flat_values csg p).getD j 0 := by
  intro Δ
  induction Δ with
  | nil => simp
  | cons x xs ih =>
      intro csg p j hj
      have hsplit : csg ++ x :: xs = (csg ++ [x]) ++ xs := by simp
      rw [hsplit, ih _ p j (by simp; omega), flat_values_concat]
      obtain ⟨v, hv⟩ := flat_step_eq p (flat_values csg p) x
      have hlen := length_flat_values csg p
      rw [hv, getD_append_lt _ _ _ _ (by omega)]

lemma getD_copy_params (ps : List ℚ) (j : ℕ) (h : j < 16) :
    (copy_params ps).getD j 0 = ps.getD j 0 := by
  simp [copy_params, List.getD_eq_getElem?_getD, List.getElem?_map,
    List.getElem?_range h]

/-- The linearizer's 16-slot copy of the parameter array does not change
primitive evaluation (which reads slots 0-3). -/
lemma eval_primitive_copy (p : Vec3) (ty : primitive_type) (ps : List ℚ) :
    eval_primitive p ty (copy_params ps) = eval_primitive p ty ps := by
  unfold eval_primitive
  rw [getD_copy_params ps 0 (by omega), getD_copy_params ps 1 (by omega),
    getD_copy_params ps 2 (by omega), getD_copy_params ps 3 (by omega)]

/-! ### Correctness of the linearizer -/

lemma bake_zero (csg : CsgTree) (n : ℤ) (result : List CsgXXX)
    (mapping : List ℤ) :
    bake_eval_csg_node 0 csg n result mapping = Option.none := rfl

/-- One-step unfolding of `bake_eval_csg_node` at positive fuel. -/
lemma bake_succ (k : ℕ) (csg : CsgTree) (n : ℤ) (result : List CsgXXX)
    (mapping : List ℤ) :
    bake_eval_csg_node (k + 1) csg n result mapping =
      if (csg.nodes.getD n.toNat default).children = (-1, -1) then
        some (result ++
          [{ children := (-1, -1),
             primitive := ⟨copy_params (csg.nodes.getD n.toNat default).primitive.params,
               (csg.nodes.getD n.toNat default).primitive.type⟩ }],
          mapping.set n.toNat (result.length : ℤ))
      else
        match bake_eval_csg_node k csg
            (csg.nodes.getD n.toNat default).children.1 result mapping with
        | Option.none => Option.none
        | some (r1, m1) =>
          match bake_eval_csg_node k csg
              (csg.nodes.getD n.toNat default).children.2 r1 m1 with
          | Option.none => Option.none
          | some (r2, m2) =>
            if m2.getD (csg.nodes.getD n.toNat default).children.1.toNat (-1) ≠ -1 ∧
               m2.getD (csg.nodes.getD n.toNat default).children.2.toNat (-1) ≠ -1 then
              some (r2 ++
                [{ children :=
                     (m2.getD (csg.nodes.getD n.toNat default).children.1.toNat (-1),
                      m2.getD (csg.nodes.getD n.toNat default).children.2.toNat (-1)),
                   operation := ⟨(csg.nodes.getD n.toNat default).operation.blend,
                     (csg.nodes.getD n.toNat default).operation.softness⟩ }],
                m2.set n.toNat (r2.length : ℤ))
            else Option.none := by
  simp only [bake_eval_csg_node]

lemma topo_extend (result : List CsgXXX) (x : CsgXXX) (h : Topo result)
    (hx : x.children ≠ (-1, -1) →
      0 ≤ x.children.1 ∧ x.children.1 < (result.length : ℤ) ∧
      0 ≤ x.children.2 ∧ x.children.2 < (result.length : ℤ)) :
    Topo (result ++ [x]) := by
  intro pos hpos hch
  rw [List.length_append, List.length_singleton] at hpos
  rcases Nat.lt_or_ge pos result.length with hlt | hge
  · rw [getD_append_lt _ _ _ _ hlt] at hch ⊢
    exact h pos hlt hch
  · have hpe : pos = result.length := by omega
    subst hpe
    rw [getD_append_exact _ _ 0 _ _ (by omega),
      show ([x] : List CsgXXX).getD 0 default = x from rfl] at hch ⊢
    exact hx hch

lemma mapOk_extend (t : CsgTree) (p : Vec3) (result : List CsgXXX)
    (mapping : List ℤ) (Δ : List CsgXXX) (h : MapOk t p result mapping) :
    MapOk t p (result ++ Δ) mapping := by
  intro j hj hne
  obtain ⟨b1, b2, v, hv, hval⟩ := h j hj hne
  exact ⟨b1, by rw [List.length_append]; omega, v, hv,
    by rw [flat_values_stable Δ result p _ b2]; exact hval⟩

/-- The value the flat evaluator computes for a just-appended instruction. -/
lemma flat_values_getD_concat (csg : List CsgXXX) (x : CsgXXX) (p : Vec3) :
    (flat_values (csg ++ [x]) p).getD csg.length 0 =
      if x.children = (-1, -1) then
        eval_primitive p x.primitive.type x.primitive.params
      else
        eval_operation ((flat_values csg p).getD x.children.1.toNat 0)
          ((flat_values csg p).getD x.children.2.toNat 0)
          (x.operation.blend : ℝ) (x.operation.softness : ℝ) := by
  rw [flat_values_concat]
  by_cases h : x.children = (-1, -1)
  · rw [if_pos h]
    simp only [flat_step, if_pos h]
    rw [getD_append_exact _ _ 0 _ _ (by simp [length_flat_values])]
    rfl
  · rw [if_neg h]
    simp only [flat_step, if_neg h]
    rw [getD_append_exact _ _ 0 _ _ (by simp [length_flat_values])]
    rfl

/-- Main lemma of the bake pass: under a rank certificate, baking node `i`
succeeds, strictly extends the flat array keeping it topologically sorted,
preserves the mapping invariant, assigns `i` the last position, and never
clears an assigned mapping entry. -/
lemma bake_correct : ∀ (k : ℕ) (t : CsgTree) (d : ℕ → ℕ) (p : Vec3),
    CertOk t.nodes d →
    ∀ i, i < t.nodes.length → d i < k →
    ∀ result mapping, mapping.length = t.nodes.length →
    Topo result → MapOk t p result mapping →
    ∃ r' m', bake_eval_csg_node k t (i : ℤ) result mapping = some (r', m') ∧
      result.length < r'.length ∧
      (∃ Δ, r' = result ++ Δ) ∧
      m'.length = t.nodes.length ∧
      Topo r' ∧ MapOk t p r' m' ∧
      m'.getD i (-1) = (r'.length : ℤ) - 1 ∧
      (∀ j, mapping.getD j (-1) ≠ -1 → m'.getD j (-1) ≠ -1) := by
  intro k
  induction k with
  | zero => intro t d p hc i hi hk; omega
  | succ k ih =>
      intro t d p hc i hi hk result mapping hmlen htopo hmap
      have hit : ((i : ℤ)).toNat = i := Int.toNat_ofNat i
      by_cases hch : (t.nodes.getD i default).children = (-1, -1)
      · -- leaf: append a copy of the primitive
        refine ⟨result ++
            [{ children := (-1, -1),
               primitive := ⟨copy_params (t.nodes.getD i default).primitive.params,
                 (t.nodes.getD i default).primitive.type⟩ }],
          mapping.set i (result.length : ℤ), ?_, by simp, ⟨_, rfl⟩, by simp [hmlen], ?_, ?_, ?_, ?_⟩
        · rw [bake_succ, hit, if_pos hch]
        · exact topo_extend _ _ htopo (fun hc' => absurd rfl hc')
        · -- MapOk after the leaf append
          intro j hj hne
          by_cases hji : j = i
          · subst hji
            rw [getD_set_self _ _ _ _ (by omega)] at hne ⊢
            refine ⟨by omega, ?_, eval_primitive p (t.nodes.getD j default).primitive.type
                (t.nodes.getD j default).primitive.params, ⟨1, ?_⟩, ?_⟩
            · simp
            · rw [eval_csg_node_succ, if_pos hch]
            · rw [show ((result.length : ℤ)).toNat = result.length from Int.toNat_ofNat _,
                flat_values_getD_concat, if_pos rfl]
              exact eval_primitive_copy p _ _
          · rw [getD_set_ne _ _ _ _ _ (fun he => hji he.symm)] at hne ⊢
            exact mapOk_extend t p result mapping _ hmap j hj hne
        · rw [getD_set_self _ _ _ _ (by omega)]
          rw [List.length_append, List.length_singleton]
          push_cast
          ring
        · intro j hne
          by_cases hji : j = i
          · subst hji
            by_cases hjl : j < mapping.length
            · rw [getD_set_self _ _ _ _ hjl]; omega
            · rw [List.set_eq_of_length_le (by omega)]; exact hne
          · rw [getD_set_ne _ _ _ _ _ (fun he => hji he.symm)]; exact hne
      · -- internal node: bake both children first
        obtain hl | ⟨a1, a2, a3, a4, a5, a6⟩ := (hc i hi).1
        · exact absurd hl hch
        · have hc1 : (t.nodes.getD i default).children.1.toNat < t.nodes.length := by
            omega
          have hc2 : (t.nodes.getD i default).children.2.toNat < t.nodes.length := by
            omega
          obtain ⟨r1, m1, heq1, hlen1, ⟨Δ1, hΔ1⟩, hm1len, htopo1, hmap1, hroot1, hpres1⟩ :=
            ih t d p hc (t.nodes.getD i default).children.1.toNat hc1 (by omega)
              result mapping hmlen htopo hmap
          obtain ⟨r2, m2, heq2, hlen2, ⟨Δ2, hΔ2⟩, hm2len, htopo2, hmap2, hroot2, hpres2⟩ :=
            ih t d p hc (t.nodes.getD i default).children.2.toNat hc2 (by omega)
              r1 m1 hm1len htopo1 hmap1
          rw [Int.toNat_of_nonneg a1] at heq1
          rw [Int.toNat_of_nonneg a3] at heq2
          have hg1 : m2.getD (t.nodes.getD i default).children.1.toNat (-1) ≠ -1 := by
            apply hpres2
            rw [hroot1]
            omega
          have hg2 : m2.getD (t.nodes.getD i default).children.2.toNat (-1) ≠ -1 := by
            rw [hroot2]
            omega
          obtain ⟨b11, b12, f, hfEval, hfval⟩ := hmap2 _ hc1 hg1
          obtain ⟨b21, b22, g, hgEval, hgval⟩ := hmap2 _ hc2 hg2
          set fop : CsgXXX :=
            { children := (m2.getD (t.nodes.getD i default).children.1.toNat (-1),
                           m2.getD (t.nodes.getD i default).children.2.toNat (-1)),
              operation := ⟨(t.nodes.getD i default).operation.blend,
                (t.nodes.getD i default).operation.softness⟩ } with hfop
          have hfopch : fop.children ≠ (-1, -1) := by
            intro hcon
            have hcon' : (m2.getD (t.nodes.getD i default).children.1.toNat (-1),
                m2.getD (t.nodes.getD i default).children.2.toNat (-1)) =
                ((-1 : ℤ), (-1 : ℤ)) := hcon
            exact hg1 (congrArg Prod.fst hcon')
          refine ⟨r2 ++ [fop], m2.set i (r2.length : ℤ), ?_, by simp; omega,
            ⟨Δ1 ++ Δ2 ++ [fop], by rw [hΔ1, hΔ2] at *; simp⟩, by simp [hm2len], ?_, ?_, ?_, ?_⟩
          · rw [bake_succ, hit, if_neg hch]
            simp only [heq1, heq2]
            rw [if_pos (And.intro hg1 hg2), hfop]
          · refine topo_extend _ _ htopo2 (fun _ => ?_)
            rw [hfop]
            refine ⟨b11, ?_, b21, ?_⟩
            · show m2.getD (t.nodes.getD i default).children.1.toNat (-1) <
                (r2.length : ℤ)
              omega
            · show m2.getD (t.nodes.getD i default).children.2.toNat (-1) <
                (r2.length : ℤ)
              omega
          · -- MapOk after the internal append
            intro j hj hne
            by_cases hji : j = i
            · subst hji
              rw [getD_set_self _ _ _ _ (by omega)] at hne ⊢
              obtain ⟨kf, hkf⟩ := hfEval
              obtain ⟨kg, hkg⟩ := hgEval
              refine ⟨by omega, by simp, eval_operation f g
                  ((t.nodes.getD j default).operation.blend : ℝ)
                  ((t.nodes.getD j default).operation.softness : ℝ),
                ⟨max kf kg + 1, ?_⟩, ?_⟩
              · rw [eval_csg_node_succ, if_neg hch,
                  eval_csg_node_le (Nat.le_max_left kf kg) hkf,
                  eval_csg_node_le (Nat.le_max_right kf kg) hkg]
              · rw [show ((r2.length : ℤ)).toNat = r2.length from Int.toNat_ofNat _,
                  flat_values_getD_concat, if_neg hfopch]
                rw [hfop]
                rw [hfval, hgval]
            · rw [getD_set_ne _ _ _ _ _ (fun he => hji he.symm)] at hne ⊢
              exact mapOk_extend t p r2 m2 _ hmap2 j hj hne
          · rw [getD_set_self _ _ _ _ (by omega)]
            rw [List.length_append, List.length_singleton]
            push_cast
            ring
          · intro j hne
            by_cases hji : j = i
            · subst hji
              by_cases hjl : j < m2.length
              · rw [getD_set_self _ _ _ _ hjl]; omega
              · rw [List.set_eq_of_length_le (by omega)]
                exact hpres2 j (hpres1 j hne)
            · rw [getD_set_ne _ _ _ _ _ (fun he => hji he.symm)]
              exact hpres2 j (hpres1 j hne)

/-- Combined top-level consequence of `bake_correct` for reachable trees:
the bake pass succeeds, its output is topologically sorted, the root maps
to the last position, and the flat evaluation of the output agrees with the
recursive evaluation of the tree. -/
lemma bake_main (t : CsgTree) (hR : Reachable t) (hne : t.nodes ≠ [])
    (p : Vec3) :
    ∃ result mapping,
      bake_eval_csg_run t = some (result, mapping) ∧
      Topo result ∧
      mapping.getD t.root.toNat (-1) = (result.length : ℤ) - 1 ∧
      eval_csg t p = some (eval_csg_flat result p) := by
  obtain ⟨hroot, hcert⟩ := wf_reachable hR
  obtain ⟨hr0, hrlt⟩ := hroot hne
  obtain ⟨d, hd⟩ := hcert
  have hrn : t.root.toNat < t.nodes.length := by omega
  have hdr : d t.root.toNat < t.nodes.length := (hd _ hrn).2
  have htopo0 : Topo [] := by
    intro pos hpos
    simp at hpos
  have hmap0 : MapOk t p [] (List.replicate t.nodes.length (-1)) := by
    intro j hj hne'
    exact absurd (getD_replicate_lt _ _ _ _ hj) hne'
  obtain ⟨r', m', heq, hlen, hΔ, hm'len, htopo', hmap', hroot', hpres⟩ :=
    bake_correct t.nodes.length t d p hd t.root.toNat hrn hdr []
      (List.replicate t.nodes.length (-1)) (by simp) htopo0 hmap0
  rw [Int.toNat_of_nonneg hr0] at heq
  have hrun : bake_eval_csg_run t = some (r', m') := by
    rw [bake_eval_csg_run, heq]
  have hr'pos : 0 < r'.length := by simpa using hlen
  have hne' : m'.getD t.root.toNat (-1) ≠ -1 := by
    rw [hroot']
    omega
  obtain ⟨b1, b2, v, hvE, hval⟩ := hmap' t.root.toNat hrn hne'
  have htn : (m'.getD t.root.toNat (-1)).toNat = r'.length - 1 := by
    rw [hroot']
    omega
  rw [htn] at hval
  obtain ⟨w, hw⟩ := eval_csg_node_succeeds t.nodes.length t d p hd
    t.root.toNat hrn hdr
  have hwv : w = v := evalIdx_det ⟨t.nodes.length, hw⟩ hvE
  refine ⟨r', m', hrun, htopo', hroot', ?_⟩
  rw [eval_csg, hw, hwv, eval_csg_flat, hval]

/-! ### Claim theorems -/

/-- C9: every tree reachable from `create_empty()` by `add_edit` calls
satisfies the node invariant: each node is a leaf iff its children are
`(-1,-1)`, and no node ever has exactly one child equal to `-1`. -/
theorem reachable_leaf_iff (t : CsgTree) (hR : Reachable t) :
    ∀ node ∈ t.nodes, node.children = (-1, -1) ∨
      (node.children.1 ≠ -1 ∧ node.children.2 ≠ -1) := by
  obtain ⟨_, d, hd⟩ := wf_reachable hR
  intro node hmem
  obtain ⟨j, hj, hnode⟩ := List.getElem_of_mem hmem
  have hgd : t.nodes.getD j default = node := by
    rw [List.getD_eq_getElem?_getD, List.getElem?_eq_getElem hj, hnode]
    rfl
  obtain hl | ⟨a1, a2, a3, a4, a5, a6⟩ := (hd j hj).1
  · left; rw [← hgd]; exact hl
  · right
    rw [← hgd]
    exact ⟨by omega, by omega⟩

/-- Witness for C9: the promoted node `2` of the concrete reachable
five-node tree. -/
theorem reachable_leaf_iff_witness :
    (t3c.nodes.getD 2 default).children = (-1, -1) ∨
    ((t3c.nodes.getD 2 default).children.1 ≠ -1 ∧
     (t3c.nodes.getD 2 default).children.2 ≠ -1) :=
  reachable_leaf_iff t3c
    (Reachable.step _ _ _ _ (Reachable.step _ _ _ _
      (Reachable.step _ _ _ _ Reachable.empty)))
    (t3c.nodes.getD 2 default) (by decide)

/-- C6: for every tree reachable by the documented edit operations, the
array produced by the linearizer is topologically sorted — each internal
instruction's children sit at valid positions strictly below its own — and
the tree's root is mapped to the last element of the array. -/
theorem bake_topological (t : CsgTree) (hR : Reachable t)
    (hne : t.nodes ≠ []) :
    ∃ result mapping,
      bake_eval_csg_run t = some (result, mapping) ∧
      bake_eval_csg t = some result ∧
      Topo result ∧
      mapping.getD t.root.toNat (-1) = (result.length : ℤ) - 1 := by
  obtain ⟨result, mapping, hrun, htopo, hroot, _⟩ :=
    bake_main t hR hne ((0 : ℚ), (0 : ℚ), (0 : ℚ))
  exact ⟨result, mapping, hrun, by rw [bake_eval_csg, hrun]; rfl, htopo, hroot⟩

/-- Witness for C6 at the concrete reachable five-node tree. -/
theorem bake_topological_witness :
    ∃ result mapping,
      bake_eval_csg_run t3c = some (result, mapping) ∧
      bake_eval_csg t3c = some result ∧
      Topo result ∧
      mapping.getD t3c.root.toNat (-1) = (result.length : ℤ) - 1 :=
  bake_topological t3c
    (Reachable.step _ _ _ _ (Reachable.step _ _ _ _
      (Reachable.step _ _ _ _ Reachable.empty)))
    (by decide)

/-- C3: for every non-empty tree built from the documented edit operations
and every point, the bake pass succeeds and evaluating its flat output at
that point equals evaluating the recursive form of the same tree there
(exactly — the model computes with exact rationals and reals). -/
theorem flat_eval_eq_recursive (t : CsgTree) (hR : Reachable t)
    (hne : t.nodes ≠ []) (p : Vec3) :
    ∃ flat, bake_eval_csg t = some flat ∧
      eval_csg t p = some (eval_csg_flat flat p) := by
  obtain ⟨result, mapping, hrun, _, _, heval⟩ := bake_main t hR hne p
  exact ⟨result, by rw [bake_eval_csg, hrun]; rfl, heval⟩

/-- Witness for C3 at the concrete three-node tree and the origin. -/
theorem flat_eval_eq_recursive_witness :
    ∃ flat, bake_eval_csg t2c = some flat ∧
      eval_csg t2c ((0 : ℚ), (0 : ℚ), (0 : ℚ)) =
        some (eval_csg_flat flat ((0 : ℚ), (0 : ℚ), (0 : ℚ))) :=
  flat_eval_eq_recursive t2c
    (Reachable.step _ _ _ _ (Reachable.step _ _ _ _ Reachable.empty))
    (by decide) ((0 : ℚ), (0 : ℚ), (0 : ℚ))

/-- C7: with zero softness the blend operators are the hard booleans:
`eval_operation f g 1 0 = min f g`, `eval_operation f g (-1) 0 =
max f (-g)`, and `smin`/`smax` with `k = 0` are exactly `min`/`max`. -/
theorem eval_operation_hard (f g : ℝ) :
    eval_operation f g 1 0 = min f g ∧
    eval_operation f g (-1) 0 = max f (-g) ∧
    (∀ a b : ℝ, smin a b 0 = min a b ∧ smax a b 0 = max a b) := by
  refine ⟨?_, ?_, fun a b => ⟨by rw [smin, if_pos rfl], by rw [smax, if_pos rfl]⟩⟩
  · rw [eval_operation, if_pos (by norm_num : (0:ℝ) ≤ 1), smin, if_pos rfl, lerp]
    ring
  · rw [eval_operation, if_neg (by norm_num : ¬ (0:ℝ) ≤ -1), smax, if_pos rfl, lerp]
    ring

/-- C1 (code bug exhibit): attaching at the non-root leaf `2` of the
three-node tree, the appended copy-node `3` does **not** carry the old
primitive of node `2` (a sphere): the code copies only the `operation`
member of the old node and never writes the copy's `primitive`, which
stays at its never-initialised default.  The rest of the claimed behaviour
(promotion of node `2` to the given operation with children `(3,4)`, the
new leaf `4` carrying the incoming primitive, return value `4`) holds. -/
theorem add_edit_leaf_drops_old_primitive :
    (t2c.nodes.getD 2 default).primitive = sphereB ∧
    (t3c.nodes.getD 3 default).primitive = default_primitive ∧
    default_primitive ≠ sphereB ∧
    (t3c.nodes.getD 3 default).operation = (t2c.nodes.getD 2 default).operation ∧
    (t3c.nodes.getD 3 default).children = (-1, -1) ∧
    (t3c.nodes.getD 2 default).children = (3, 4) ∧
    (t3c.nodes.getD 2 default).operation = opU ∧
    (t3c.nodes.getD 4 default).primitive = sphereC ∧
    (add_edit t2c 2 opU sphereC).2 = Except.ok 4 := by
  decide

/-- C2 (code bug exhibit): `subtract_sphere` forwards `{false, softness}`
to `add_edit`, and the C++ `bool`-to-`float` conversion makes the installed
blend `0`, not the claimed `-1`; on a one-leaf tree the call therefore
differs from `add_edit` with `{blend := -1}`, and the operation stored in
the new root has blend `0` — which `eval_operation` treats as an inert
edit (`lerp(f, ·, 0) = f`), not as a subtraction. -/
theorem subtract_sphere_blend_zero :
    subtract_sphere t1c 0 0 (1, 0, 0) 1 =
      add_edit t1c 0 ⟨0, 0⟩ ⟨sphere_params (1, 0, 0) 1, primitive_type.sphere⟩ ∧
    subtract_sphere t1c 0 0 (1, 0, 0) 1 ≠
      add_edit t1c 0 ⟨-1, 0⟩ ⟨sphere_params (1, 0, 0) 1, primitive_type.sphere⟩ ∧
    ((subtract_sphere t1c 0 0 (1, 0, 0) 1).1.nodes.getD 1 default).operation.blend
      = 0 ∧ (0 : ℚ) ≠ -1 := by
  refine ⟨rfl, ?_, by decide, by decide⟩
  decide

/-- The inertness of a blend-`0` operation in `eval_operation` (what the
installed `subtract_sphere` operation evaluates to). -/
theorem eval_operation_blend_zero (f g softness : ℝ) :
    eval_operation f g 0 softness = f := by
  rw [eval_operation, if_pos le_rfl, lerp]
  ring

/-- C8 (code bug exhibit): evaluating a Box primitive returns the plain
finite value `1` — no sentinel and no error — and `1` is also the exact
distance a genuine sphere evaluation can produce (unit sphere at the
origin, sample point `(2,0,0)`), so the Box result is indistinguishable
from a real distance. -/
theorem box_returns_plain_one :
    eval_primitive ((0 : ℚ), (0 : ℚ), (0 : ℚ)) primitive_type.box
      (sphere_params (0, 0, 0) 1) = 1 ∧
    eval_primitive ((2 : ℚ), (0 : ℚ), (0 : ℚ)) primitive_type.sphere
      (sphere_params (0, 0, 0) 1) = 1 := by
  constructor
  · rw [eval_primitive, if_neg (by decide), if_pos rfl]
  · rw [eval_primitive, if_pos rfl]
    have hc0 : (sphere_params (0, 0, 0) 1).getD 0 0 = 0 := by decide
    have hc1 : (sphere_params (0, 0, 0) 1).getD 1 0 = 0 := by decide
    have hc2 : (sphere_params (0, 0, 0) 1).getD 2 0 = 0 := by decide
    have hc3 : (sphere_params (0, 0, 0) 1).getD 3 0 = 1 := by decide
    rw [hc0, hc1, hc2, hc3]
    simp only [dist3]
    have h4 : ((((2 : ℚ), (0 : ℚ), (0 : ℚ)).1 - 0) ^ 2 +
        (((2 : ℚ), (0 : ℚ), (0 : ℚ)).2.1 - 0) ^ 2 +
        (((2 : ℚ), (0 : ℚ), (0 : ℚ)).2.2 - 0) ^ 2 : ℚ) = 4 := by norm_num
    rw [h4]
    norm_num
    rw [show (4 : ℝ) = 2 ^ 2 by norm_num, Real.sqrt_sq (by norm_num : (0:ℝ) ≤ 2)]
    norm_num

/-- C4: calling `add_edit` with `attach_at` pointing at a non-root node
that already has two children fails with `InvalidAttachPoint` and leaves
the tree — in particular the arena's node count — unchanged. -/
theorem add_edit_invalid_attach (t : CsgTree) (parent : ℤ)
    (op : CsgOperation) (prim : CsgPrimitve)
    (hne : t.nodes ≠ []) (hp : parent ≠ t.root) (h0 : 0 ≤ parent)
    (hlt : parent < (t.nodes.length : ℤ))
    (hx : (t.nodes.getD parent.toNat default).children.1 ≠ -1)
    (hy : (t.nodes.getD parent.toNat default).children.2 ≠ -1) :
    add_edit t parent op prim = (t, Except.error CsgError.invalidAttachPoint) ∧
    (add_edit t parent op prim).1.nodes.length = t.nodes.length := by
  have h := add_edit_notleaf_eq t parent op prim hne hp h0 hlt
    (fun hc => hx hc.1)
  exact ⟨h, by rw [h]⟩

/-- Witness for C4: node `1` of `t4c` is non-root with children `(3,4)`. -/
theorem add_edit_invalid_attach_witness :
    add_edit t4c 1 opU sphereA = (t4c, Except.error CsgError.invalidAttachPoint) ∧
    (add_edit t4c 1 opU sphereA).1.nodes.length = t4c.nodes.length :=
  add_edit_invalid_attach t4c 1 opU sphereA (by decide) (by decide)
    (by decide) (by decide) (by decide) (by decide)

/-- C10: whenever `add_edit` returns normally, the returned index is the
last slot of the grown arena, and the node there is a leaf
(`children = (-1,-1)`) whose primitive is exactly the one passed in. -/
theorem add_edit_ok_returns_new_leaf (t : CsgTree) (parent : ℤ)
    (op : CsgOperation) (prim : CsgPrimitve) (idx : ℤ)
    (h : (add_edit t parent op prim).2 = Except.ok idx) :
    idx = ((add_edit t parent op prim).1.nodes.length : ℤ) - 1 ∧
    ((add_edit t parent op prim).1.nodes.getD idx.toNat default).children
      = (-1, -1) ∧
    ((add_edit t parent op prim).1.nodes.getD idx.toNat default).primitive
      = prim := by
  by_cases hemp : t.nodes = []
  · rw [add_edit_empty_eq t parent op prim hemp] at h ⊢
    have hidx : idx = 0 := by
      have := Except.ok.inj h
      omega
    subst hidx
    refine ⟨by simp [hemp], rfl, rfl⟩
  · by_cases hoob : parent < 0 ∨ (t.nodes.length : ℤ) ≤ parent
    · rw [add_edit_oob_eq t parent op prim hemp hoob] at h
      exact absurd h (by simp)
    · push_neg at hoob
      obtain ⟨h0, hlt⟩ := hoob
      by_cases hp : parent = t.root
      · rw [add_edit_root_eq t parent op prim hemp hp h0 hlt] at h ⊢
        have hidx : idx = (t.nodes.length : ℤ) + 1 := (Except.ok.inj h).symm
        subst hidx
        have htn : ((t.nodes.length : ℤ) + 1).toNat = t.nodes.length + 1 := by
          omega
        refine ⟨?_, ?_, ?_⟩
        · show ((t.nodes.length : ℤ) + 1) = _
          rw [List.length_append, List.length_set, List.length_cons,
            List.length_cons, List.length_nil]
          push_cast
          ring
        · rw [htn]
          rw [getD_append_exact _ _ 1 _ _ (by simp)]
          rfl
        · rw [htn]
          rw [getD_append_exact _ _ 1 _ _ (by simp)]
          rfl
      · by_cases hleaf : (t.nodes.getD parent.toNat default).children.1 = -1 ∧
            (t.nodes.getD parent.toNat default).children.2 = -1
        · rw [add_edit_leaf_eq t parent op prim hemp hp h0 hlt
            hleaf.1 hleaf.2] at h ⊢
          have hidx : idx = (t.nodes.length : ℤ) + 1 := (Except.ok.inj h).symm
          subst hidx
          have htn : ((t.nodes.length : ℤ) + 1).toNat = t.nodes.length + 1 := by
            omega
          refine ⟨?_, ?_, ?_⟩
          · show ((t.nodes.length : ℤ) + 1) = _
            rw [List.length_append, List.length_set, List.length_cons,
              List.length_cons, List.length_nil]
            push_cast
            ring
          · rw [htn]
            rw [getD_append_exact _ _ 1 _ _ (by simp)]
            rfl
          · rw [htn]
            rw [getD_append_exact _ _ 1 _ _ (by simp)]
            rfl
        · rw [add_edit_notleaf_eq t parent op prim hemp hp h0 hlt hleaf] at h
          exact absurd h (by simp)

/-- Witness for C10 at a concrete successful root-attach call. -/
theorem add_edit_ok_returns_new_leaf_witness :
    (2 : ℤ) = ((add_edit t1c 0 opU sphereB).1.nodes.length : ℤ) - 1 ∧
    ((add_edit t1c 0 opU sphereB).1.nodes.getD (2 : ℤ).toNat default).children
      = (-1, -1) ∧
    ((add_edit t1c 0 opU sphereB).1.nodes.getD (2 : ℤ).toNat default).primitive
      = sphereB :=
  add_edit_ok_returns_new_leaf t1c 0 opU sphereB 2 (by decide)

/-- C5 counterexample: starting from the concrete one-leaf tree `t1c`
(single node, index 0, root 0), `add_edit(tree, 0, op, prim)` produces the
3-node tree whose root is index `1` — not `2` — with `root.children =
(0, 2)` — not `(0, 1)`. -/
theorem root_attach_claim_false :
    t1c.nodes.length = 1 ∧ t1c.root = 0 ∧
    t2c.nodes.length = 3 ∧
    t2c.root = 1 ∧ (1 : ℤ) ≠ 2 ∧
    (t2c.nodes.getD 1 default).children = (0, 2) ∧
    ((0 : ℤ), (2 : ℤ)) ≠ ((0 : ℤ), (1 : ℤ)) := by
  decide

/-- C5 as amended: starting from a one-leaf tree whose root is index 0,
`add_edit(tree, 0, op, prim)` produces a 3-node tree whose root is index
`1` with `root.children = (0, 2)` and payload `op`, wraps the prior root
under the new Operation root (the old node keeps its content, only its
`parent` is updated to `1`), and returns the new leaf's index `2`. -/
theorem root_attach_growth (t : CsgTree) (op : CsgOperation)
    (prim : CsgPrimitve) (h1 : t.nodes.length = 1) (h0 : t.root = 0) :
    (add_edit t 0 op prim).1.nodes.length = 3 ∧
    (add_edit t 0 op prim).1.root = 1 ∧
    ((add_edit t 0 op prim).1.nodes.getD 1 default).children = (0, 2) ∧
    ((add_edit t 0 op prim).1.nodes.getD 1 default).operation = op ∧
    ((add_edit t 0 op prim).1.nodes.getD 0 default) =
      { t.nodes.getD 0 default with parent := 1 } ∧
    ((add_edit t 0 op prim).1.nodes.getD 2 default).primitive = prim ∧
    (add_edit t 0 op prim).2 = Except.ok 2 := by
  obtain ⟨nodes, root⟩ := t
  have h0' : root = 0 := h0
  subst h0'
  rcases nodes with _ | ⟨x, rest⟩
  · simp at h1
  · rcases rest with _ | ⟨y, rest'⟩
    · exact ⟨rfl, rfl, rfl, rfl, rfl, rfl, rfl⟩
    · simp at h1

/-- Witness for C5 (amended) at the concrete one-leaf tree. -/
theorem root_attach_growth_witness :
    (add_edit t1c 0 opU sphereB).1.nodes.length = 3 ∧
    (add_edit t1c 0 opU sphereB).1.root = 1 ∧
    ((add_edit t1c 0 opU sphereB).1.nodes.getD 1 default).children = (0, 2) ∧
    ((add_edit t1c 0 opU sphereB).1.nodes.getD 1 default).operation = opU ∧
    ((add_edit t1c 0 opU sphereB).1.nodes.getD 0 default) =
      { t1c.nodes.getD 0 default with parent := 1 } ∧
    ((add_edit t1c 0 opU sphereB).1.nodes.getD 2 default).primitive = sphereB ∧
    (add_edit t1c 0 opU sphereB).2 = Except.ok 2 :=
  root_attach_growth t1c opU sphereB (by decide) (by decide)

end Csg
